import Mathlib

/-!
Shallow embedding of the two character-level RNN notebooks of this
repository: the name-classification notebook and the name-generation
notebook (3_LanguageModel). Tensors are embedded as lists of rationals;
one-hot rows flatten the singleton batch dimension of the source. Library
pieces of PyTorch that the notebooks merely call (the cross-entropy
criterion and the backward-plus-SGD update) appear as explicit function
parameters; everything else is translated from the notebook code.
-/

namespace KiRNN

/-- Python `string.ascii_lowercase`. -/
def asciiLowercase : List Char := (List.range 26).map (fun i => Char.ofNat (97 + i))

/-- Python `string.ascii_uppercase`. -/
def asciiUppercase : List Char := (List.range 26).map (fun i => Char.ofNat (65 + i))

/-- Python `string.ascii_letters`. -/
def asciiLetters : List Char := asciiLowercase ++ asciiUppercase

/-- `all_letters = string.ascii_letters + " .,;^"` where `^` stands here for
the apostrophe character (code 39), the final entry of the vocabulary.
Both notebooks define this identically. -/
def all_letters : List Char := asciiLetters ++ [' ', '.', ',', ';', Char.ofNat 39]

/-- `n_letters = len(all_letters)`. -/
def n_letters : Nat := all_letters.length

/-- Python `s.find(c)`: index of the first occurrence, `-1` when absent. -/
def strFind (s : List Char) (c : Char) : Int :=
  match s.findIdx? (fun x => x == c) with
  | some i => (i : Int)
  | none => -1

/-- Python sequence indexing as used in an assignment `t[i] = v`: a negative
index counts from the end of a sequence of length `n`. -/
def pySetIndex (n : Nat) (i : Int) : Nat :=
  if i < 0 then (i + (n : Int)).toNat else i.toNat

/-- `letterToTensor` (classification notebook): a row of zeros with a 1
written at `all_letters.find(letter)`; for a letter outside the vocabulary
`find` yields `-1` and the 1 lands on the last index by negative indexing. -/
def letterToTensor (c : Char) : List ℚ :=
  (List.replicate n_letters (0 : ℚ)).set (pySetIndex n_letters (strFind all_letters c)) 1

/-- `lineToTensor` (classification notebook): one one-hot row per character,
in order. -/
def lineToTensor (line : List Char) : List (List ℚ) :=
  line.map letterToTensor

/-- One row of `inputTensor` (generation notebook); the same computation as
`letterToTensor`. -/
def inputRow (c : Char) : List ℚ :=
  (List.replicate n_letters (0 : ℚ)).set (pySetIndex n_letters (strFind all_letters c)) 1

/-- `inputTensor` (generation notebook): one one-hot row per character. -/
def inputTensor (line : List Char) : List (List ℚ) :=
  line.map inputRow

/-- `targetTensor` (generation notebook): the vocabulary indices of the
second letter through the last, with `n_letters - 1` (EOS) appended. -/
def targetTensor (line : List Char) : List Int :=
  (line.drop 1).map (fun c => strFind all_letters c) ++ [(n_letters : Int) - 1]

/-- Helper for `torch.argmax`: index of the first maximal entry. -/
def argmaxAux : List ℚ → Nat → Nat → ℚ → Nat
  | [], _, best, _ => best
  | x :: xs, i, best, bestVal =>
    if bestVal < x then argmaxAux xs (i + 1) i x else argmaxAux xs (i + 1) best bestVal

/-- `torch.argmax` over a score row (first maximal index; 0 on the empty
row, which never arises in the notebooks). -/
def argmaxList : List ℚ → Nat
  | [] => 0
  | x :: xs => argmaxAux xs 1 0 x

/-- Dot product of a weight row with an input vector. -/
def dotQ (r x : List ℚ) : ℚ :=
  ((r.zip x).map (fun p => p.1 * p.2)).sum

/-- `nn.Linear(ins, outs)`: a weight matrix (one row per output entry) and a
bias vector; the application computes `W x + b`. -/
structure Linear where
  weight : List (List ℚ)
  bias : List ℚ

/-- Application of a linear layer to an input vector. -/
def Linear.app (f : Linear) (x : List ℚ) : List ℚ :=
  (f.weight.zip f.bias).map (fun rb => dotQ rb.1 x + rb.2)

/-- Shape well-formedness of the parameters of `nn.Linear(ins, outs)`. -/
def Linear.wf (f : Linear) (ins outs : Nat) : Prop :=
  f.weight.length = outs ∧ f.bias.length = outs ∧ ∀ r ∈ f.weight, r.length = ins

/-- The classification notebook RNN module: layers `i2h` and `i2o` applied
to the concatenation of input and hidden state. -/
structure RNNC where
  i2h : Linear
  i2o : Linear

/-- The hidden width hard-coded to 128 in the classification `__init__`. -/
def hiddenSizeC : Nat := 128

/-- `RNN.forward` (classification): `combined = cat((x, hidden))`; returns
`(i2o(combined), i2h(combined))`. -/
def rnncForward (p : RNNC) (x hidden : List ℚ) : List ℚ × List ℚ :=
  let combined := x ++ hidden
  (p.i2o.app combined, p.i2h.app combined)

/-- Shapes of `RNN(input_size=n_letters, output_size=C)`, the classification
instantiation. -/
def RNNC.wf (p : RNNC) (C : Nat) : Prop :=
  p.i2h.wf (n_letters + hiddenSizeC) hiddenSizeC ∧ p.i2o.wf (n_letters + hiddenSizeC) C

/-- The loop of `predict`: run the cell over the rows in order from the
given hidden state; the accumulator holds the output of the last executed
step (`none` while no step has run, mirroring the unbound Python loop
variable). -/
def classifySteps (p : RNNC) : List (List ℚ) → List ℚ → Option (List ℚ) → Option (List ℚ)
  | [], _, out => out
  | x :: xs, hidden, _ =>
    let step := rnncForward p x hidden
    classifySteps p xs step.2 (some step.1)

/-- Core of `predict` (classification notebook): the category-score row
after the whole line has been fed, starting from the all-zero hidden state.
On the empty line the Python function reads a variable that was never
assigned and raises; this error path is embedded as `none`. -/
def predictOutput (p : RNNC) (line : List Char) : Option (List ℚ) :=
  classifySteps p (lineToTensor line) (List.replicate hiddenSizeC (0 : ℚ)) none

/-- The generation notebook RNN module: three linear layers plus the stored
hidden width (constructor arguments `input_size, hidden_size, output_size`;
the category width is baked into the layer shapes). -/
structure RNNG where
  hidden_size : Nat
  i2h : Linear
  i2o : Linear
  o2o : Linear

/-- `initHidden`: the all-zero hidden state. -/
def RNNG.initHidden (p : RNNG) : List ℚ :=
  List.replicate p.hidden_size (0 : ℚ)

/-- `RNN.forward` (generation): concatenate `(category, x, hidden)`, project
to the new hidden state and an intermediate output, concatenate
`(hidden, output)` and project once more to the returned score row. -/
def rnngForward (p : RNNG) (category x hidden : List ℚ) : List ℚ × List ℚ :=
  let input_combined := category ++ x ++ hidden
  let hidden2 := p.i2h.app input_combined
  let output1 := p.i2o.app input_combined
  let output_combined := hidden2 ++ output1
  (p.o2o.app output_combined, hidden2)

/-- Shapes of the generation RNN for category width `C` and vocabulary
width `V`; the notebook instantiates `RNN(n_letters, 128, n_letters)` with
`n_categories = 18`. -/
def RNNG.wf (p : RNNG) (C V : Nat) : Prop :=
  p.i2h.wf (C + V + p.hidden_size) p.hidden_size ∧
  p.i2o.wf (C + V + p.hidden_size) V ∧
  p.o2o.wf (p.hidden_size + V) V

/-- `max_length = 20` (generation notebook). -/
def max_length : Nat := 20

/-- Decoding loop of `sample_word`: advance the cell on the current input,
take the argmax of the output; stop at the end marker, otherwise append the
letter and continue on its one-hot encoding. -/
def sampleLoop (p : RNNG) (category : List ℚ) :
    Nat → List ℚ → List ℚ → List Char → List Char
  | 0, _, _, acc => acc
  | fuel + 1, x, hidden, acc =>
    let step := rnngForward p category x hidden
    let top := argmaxList step.1
    if top = n_letters - 1 then acc
    else
      let letter := all_letters.getD top (Char.ofNat 0)
      sampleLoop p category fuel (inputRow letter) step.2 (acc ++ [letter])

/-- `sample_word(start_letter, category)` with the category already encoded
as a one-hot row: greedy decoding from one start letter, at most
`max_length` generated letters. -/
def sample_word (p : RNNG) (start_letter : Char) (category : List ℚ) : List Char :=
  sampleLoop p category max_length (inputRow start_letter) p.initHidden [start_letter]

/-- Warm-up loop of the multi-seed generation script: feed every seed letter
in order, keeping the hidden state and the output of the last step (`none`
while no letter has been fed, mirroring the unbound Python variable). -/
def feedSeed (p : RNNG) (category : List ℚ) :
    List Char → List ℚ → Option (List ℚ) → Option (List ℚ) × List ℚ
  | [], hidden, out => (out, hidden)
  | c :: cs, hidden, _ =>
    let step := rnngForward p category (inputRow c) hidden
    feedSeed p category cs step.2 (some step.1)

/-- Decoding loop of the multi-seed generation script: argmax of the current
output, stop at the end marker, otherwise append the letter, re-encode it
and advance the cell one step. -/
def genLoop (p : RNNG) (category : List ℚ) :
    Nat → List ℚ → List ℚ → List Char → List Char
  | 0, _, _, acc => acc
  | fuel + 1, output, hidden, acc =>
    let top := argmaxList output
    if top = n_letters - 1 then acc
    else
      let letter := all_letters.getD top (Char.ofNat 0)
      let step := rnngForward p category (inputRow letter) hidden
      genLoop p category fuel step.1 step.2 (acc ++ [letter])

/-- The multi-seed generation script as a function of the seed
`start_letters`, the encoded category and the maximum length (the source
fixes `max_length = 20`). An empty seed leaves the output variable of the
warm-up loop unbound and the script raises; that path is embedded as
`none`. -/
def generate (p : RNNG) (category : List ℚ) (start_letters : List Char)
    (maxLength : Nat) : Option (List Char) :=
  match feedSeed p category start_letters p.initHidden none with
  | (none, _) => none
  | (some output, hidden) => some (genLoop p category maxLength output hidden start_letters)

/-- Loop body of `train`: one cell step per input row, one criterion term
per step added to the running loss, remembering the last output. -/
def trainLoop (p : RNNG) (criterion : List ℚ → Int → ℚ) (category : List ℚ) :
    List (List ℚ) → List Int → List ℚ → ℚ → Option (List ℚ) → ℚ × Option (List ℚ)
  | [], _, _, loss, out => (loss, out)
  | x :: xs, targets, hidden, loss, _ =>
    let step := rnngForward p category x hidden
    trainLoop p criterion category xs targets.tail step.2
      (loss + criterion step.1 (targets.headD 0)) (some step.1)

/-- `train(category_tensor, input_line_tensor, target_line_tensor)`.
`criterion` stands for the library object `nn.CrossEntropyLoss()` and
`optStep` for the library pair `loss.backward(); optimizer.step()` applied
to the summed scalar loss; the source invokes that pair exactly once per
call. The result is the updated parameter state together with the Python
return pair `(output, loss.item() / n)`. -/
def train (optStep : RNNG → ℚ → RNNG) (criterion : List ℚ → Int → ℚ) (p : RNNG)
    (category : List ℚ) (inputs : List (List ℚ)) (targets : List Int) :
    RNNG × Option (List ℚ) × ℚ :=
  match trainLoop p criterion category inputs targets p.initHidden 0 none with
  | (loss, out) => (optStep p loss, out, loss / (inputs.length : ℚ))

/-- Specification-side reading of the classification runner: the returned
row is the output of the final time step of the in-order recurrence. -/
def classifySpec (p : RNNC) (x : List ℚ) (xs : List (List ℚ)) (hidden : List ℚ) : List ℚ :=
  match xs with
  | [] => (rnncForward p x hidden).1
  | y :: ys => classifySpec p y ys (rnncForward p x hidden).2

/-- Specification-side reading of greedy decoding: the generated suffix —
repeatedly take the argmax of the current output, halt at the end marker
without emitting it, otherwise emit the letter, re-encode it as a one-hot
input and advance the cell. -/
def genSpecSuffix (p : RNNG) (category : List ℚ) :
    Nat → List ℚ → List ℚ → List Char
  | 0, _, _ => []
  | fuel + 1, output, hidden =>
    let top := argmaxList output
    if top = n_letters - 1 then []
    else
      let letter := all_letters.getD top (Char.ofNat 0)
      let step := rnngForward p category (inputRow letter) hidden
      letter :: genSpecSuffix p category fuel step.1 step.2

/-- Specification-side reading of teacher forcing: the trajectory of
outputs when step `i` is fed row `i` of the prepared input tensor (the true
characters), never a model prediction. -/
def forcedOutputs (p : RNNG) (category : List ℚ) :
    List (List ℚ) → List ℚ → List (List ℚ)
  | [], _ => []
  | x :: xs, hidden =>
    let step := rnngForward p category x hidden
    step.1 :: forcedOutputs p category xs step.2

/-- Specification-side reading of the per-step losses summed into a single
scalar. -/
def totalLoss (criterion : List ℚ → Int → ℚ) (p : RNNG) (category : List ℚ)
    (inputs : List (List ℚ)) (targets : List Int) : ℚ :=
  (List.zipWith criterion (forcedOutputs p category inputs p.initHidden) targets).sum

example : n_letters = 57 := by decide

example : all_letters.getD 56 (Char.ofNat 0) = Char.ofNat 39 := by decide

example : strFind all_letters (Char.ofNat 63) = -1 := by decide

example : pySetIndex 57 (-1) = 56 := by decide

/-! ### Helper lemmas -/

theorem length_app (f : Linear) (x : List ℚ) :
    (f.app x).length = min f.weight.length f.bias.length := by
  simp [Linear.app, List.length_zip]

theorem argmaxAux_lt (xs : List ℚ) : ∀ (i best : Nat) (bv : ℚ), best < i →
    argmaxAux xs i best bv < i + xs.length := by
  induction xs with
  | nil =>
    intro i best bv h
    simpa [argmaxAux] using h
  | cons x xs ih =>
    intro i best bv h
    simp only [argmaxAux, List.length_cons]
    have hi : i + (xs.length + 1) = (i + 1) + xs.length := by omega
    rw [hi]
    split
    · exact ih (i + 1) i x (Nat.lt_succ_self i)
    · exact ih (i + 1) best bv (Nat.lt_succ_of_lt h)

theorem argmaxList_lt (l : List ℚ) (h : l ≠ []) : argmaxList l < l.length := by
  match l with
  | x :: xs =>
    have key := argmaxAux_lt xs 1 0 x Nat.one_pos
    simp only [argmaxList, List.length_cons]
    omega

theorem all_letters_getD_ne (t : Nat) (h : t < 56) :
    all_letters.getD t (Char.ofNat 0) ≠ Char.ofNat 39 := by
  have key : ∀ j : Fin 56, all_letters.getD j.1 (Char.ofNat 0) ≠ Char.ofNat 39 := by decide
  exact key ⟨t, h⟩

theorem strFind_of_not_mem (c : Char) (h : c ∉ all_letters) :
    strFind all_letters c = -1 := by
  have hnone : all_letters.findIdx? (fun x => x == c) = none := by
    refine List.findIdx?_eq_none_iff.2 (fun x hx => ?_)
    simp only [beq_eq_false_iff_ne, ne_eq]
    rintro rfl
    exact h hx
  simp [strFind, hnone]

theorem rnngForward_fst_length (p : RNNG) (category x hidden : List ℚ)
    (h1 : p.o2o.weight.length = n_letters) (h2 : p.o2o.bias.length = n_letters) :
    (rnngForward p category x hidden).1.length = n_letters := by
  simp [rnngForward, length_app, h1, h2]

theorem sampleLoop_spec (p : RNNG) (category : List ℚ)
    (h1 : p.o2o.weight.length = n_letters) (h2 : p.o2o.bias.length = n_letters) :
    ∀ (fuel : Nat) (x hidden : List ℚ) (acc : List Char),
      ∃ t, sampleLoop p category fuel x hidden acc = acc ++ t ∧ Char.ofNat 39 ∉ t := by
  intro fuel
  induction fuel with
  | zero =>
    intro x hidden acc
    exact ⟨[], by simp [sampleLoop], by simp⟩
  | succ n ih =>
    intro x hidden acc
    simp only [sampleLoop]
    by_cases htop : argmaxList (rnngForward p category x hidden).1 = n_letters - 1
    · rw [if_pos htop]
      exact ⟨[], by simp, by simp⟩
    · rw [if_neg htop]
      set top := argmaxList (rnngForward p category x hidden).1 with htopdef
      set letter := all_letters.getD top (Char.ofNat 0) with hletter
      obtain ⟨t, ht, hmem⟩ :=
        ih (inputRow letter) (rnngForward p category x hidden).2 (acc ++ [letter])
      refine ⟨letter :: t, ?_, ?_⟩
      · rw [ht, List.append_assoc]
        rfl
      · have hlen : (rnngForward p category x hidden).1.length = n_letters :=
          rnngForward_fst_length p category x hidden h1 h2
        have hne : (rnngForward p category x hidden).1 ≠ [] := by
          intro hempty
          rw [hempty] at hlen
          exact absurd hlen.symm (by decide)
        have hlt : top < n_letters := by
          rw [htopdef]
          have := argmaxList_lt (rnngForward p category x hidden).1 hne
          omega
        have h57 : n_letters = 57 := by decide
        have hlt56 : top < 56 := by omega
        have hnotapos : letter ≠ Char.ofNat 39 := by
          rw [hletter]
          exact all_letters_getD_ne top hlt56
        intro hin
        rcases List.mem_cons.1 hin with hhd | htl
        · exact hnotapos hhd.symm
        · exact hmem htl

theorem genLoop_eq_append (p : RNNG) (category : List ℚ) :
    ∀ (fuel : Nat) (output hidden : List ℚ) (acc : List Char),
      genLoop p category fuel output hidden acc
        = acc ++ genSpecSuffix p category fuel output hidden := by
  intro fuel
  induction fuel with
  | zero =>
    intro output hidden acc
    simp [genLoop, genSpecSuffix]
  | succ n ih =>
    intro output hidden acc
    simp only [genLoop, genSpecSuffix]
    by_cases htop : argmaxList output = n_letters - 1
    · rw [if_pos htop, if_pos htop, List.append_nil]
    · rw [if_neg htop, if_neg htop, ih, List.append_assoc]
      rfl

theorem genSpecSuffix_length_le (p : RNNG) (category : List ℚ) :
    ∀ (fuel : Nat) (output hidden : List ℚ),
      (genSpecSuffix p category fuel output hidden).length ≤ fuel := by
  intro fuel
  induction fuel with
  | zero =>
    intro output hidden
    simp [genSpecSuffix]
  | succ n ih =>
    intro output hidden
    simp only [genSpecSuffix]
    by_cases htop : argmaxList output = n_letters - 1
    · rw [if_pos htop]
      simp
    · rw [if_neg htop]
      simpa [List.length_cons, Nat.succ_le_succ_iff] using
        ih (rnngForward p category
          (inputRow (all_letters.getD (argmaxList output) (Char.ofNat 0))) hidden).1
          (rnngForward p category
            (inputRow (all_letters.getD (argmaxList output) (Char.ofNat 0))) hidden).2

theorem feedSeed_some (p : RNNG) (category : List ℚ) :
    ∀ (cs : List Char) (c : Char) (hidden : List ℚ) (acc : Option (List ℚ)),
      ∃ out hid, feedSeed p category (c :: cs) hidden acc = (some out, hid) := by
  intro cs
  induction cs with
  | nil =>
    intro c hidden acc
    exact ⟨_, _, rfl⟩
  | cons c2 cs ih =>
    intro c hidden acc
    simp only [feedSeed]
    exact ih c2 (rnngForward p category (inputRow c) hidden).2
      (some (rnngForward p category (inputRow c) hidden).1)

theorem classifySteps_eq (p : RNNC) :
    ∀ (xs : List (List ℚ)) (x : List ℚ) (hidden : List ℚ) (acc : Option (List ℚ)),
      classifySteps p (x :: xs) hidden acc = some (classifySpec p x xs hidden) := by
  intro xs
  induction xs with
  | nil =>
    intro x hidden acc
    simp [classifySteps, classifySpec]
  | cons y ys ih =>
    intro x hidden acc
    simp only [classifySteps, classifySpec]
    exact ih y (rnncForward p x hidden).2 (some (rnncForward p x hidden).1)

theorem classifySpec_length (p : RNNC) (C : Nat)
    (h1 : p.i2o.weight.length = C) (h2 : p.i2o.bias.length = C) :
    ∀ (xs : List (List ℚ)) (x : List ℚ) (hidden : List ℚ),
      (classifySpec p x xs hidden).length = C := by
  intro xs
  induction xs with
  | nil =>
    intro x hidden
    simp [classifySpec, rnncForward, length_app, h1, h2]
  | cons y ys ih =>
    intro x hidden
    simp only [classifySpec]
    exact ih y (rnncForward p x hidden).2

theorem forcedOutputs_length (p : RNNG) (category : List ℚ) :
    ∀ (inputs : List (List ℚ)) (hidden : List ℚ),
      (forcedOutputs p category inputs hidden).length = inputs.length := by
  intro inputs
  induction inputs with
  | nil =>
    intro hidden
    simp [forcedOutputs]
  | cons x xs ih =>
    intro hidden
    simp only [forcedOutputs, List.length_cons]
    rw [ih]

theorem getLast?_or_of_ne_nil {α : Type} (l : List α) (h : l ≠ []) (a b : Option α) :
    l.getLast?.or a = l.getLast?.or b := by
  obtain ⟨v, hv⟩ : ∃ v, l.getLast? = some v := by
    rcases hl : l.getLast? with _ | v
    · exact absurd (List.getLast?_eq_none_iff.1 hl) h
    · exact ⟨v, rfl⟩
  rw [hv]
  rfl

theorem trainLoop_eq (p : RNNG) (criterion : List ℚ → Int → ℚ) (category : List ℚ) :
    ∀ (inputs : List (List ℚ)) (targets : List Int) (hidden : List ℚ) (loss : ℚ)
      (acc : Option (List ℚ)), targets.length = inputs.length →
      trainLoop p criterion category inputs targets hidden loss acc
        = (loss + (List.zipWith criterion (forcedOutputs p category inputs hidden) targets).sum,
           (forcedOutputs p category inputs hidden).getLast?.or acc) := by
  intro inputs
  induction inputs with
  | nil =>
    intro targets hidden loss acc hlen
    simp [trainLoop, forcedOutputs]
  | cons x xs ih =>
    intro targets hidden loss acc hlen
    obtain ⟨t, ts, rfl⟩ : ∃ t ts, targets = t :: ts := by
      cases targets with
      | nil => simp at hlen
      | cons t ts => exact ⟨t, ts, rfl⟩
    simp only [trainLoop, forcedOutputs, List.tail_cons, List.headD_cons]
    rw [ih ts (rnngForward p category x hidden).2
      (loss + criterion (rnngForward p category x hidden).1 t)
      (some (rnngForward p category x hidden).1) (by simpa using hlen)]
    rw [Prod.mk.injEq]
    constructor
    · simp only [List.zipWith_cons_cons, List.sum_cons]
      ring
    · rcases hcase : forcedOutputs p category xs (rnngForward p category x hidden).2 with _ | ⟨b, bs⟩
      · simp
      · rw [List.getLast?_cons_cons]
        exact getLast?_or_of_ne_nil (b :: bs) (by simp) _ _

/-! ### Claim C1 -/

/-- Claim C1, counterexample: encoding the out-of-vocabulary character `?`
(code 63) does not fail — both `letterToTensor` and the `inputTensor` row
builder return the one-hot row with the 1 at index 56. -/
theorem c1_cex :
    letterToTensor (Char.ofNat 63) = (List.replicate n_letters (0 : ℚ)).set 56 1 ∧
    inputRow (Char.ofNat 63) = (List.replicate n_letters (0 : ℚ)).set 56 1 :=
  ⟨by decide, by decide⟩

/-- Claim C1 as amended: for every character outside the vocabulary,
`letterToTensor` (classification notebook) and the row builder of
`inputTensor` (generation notebook) return normally — `find` yields `-1`,
negative indexing writes the 1 at the last index `n_letters - 1`, and the
resulting one-hot row is returned; no error is raised. -/
theorem c1_thm (c : Char) (h : c ∉ all_letters) :
    letterToTensor c = (List.replicate n_letters (0 : ℚ)).set (n_letters - 1) 1 ∧
    inputRow c = (List.replicate n_letters (0 : ℚ)).set (n_letters - 1) 1 := by
  have hf := strFind_of_not_mem c h
  have hidx : pySetIndex n_letters (strFind all_letters c) = n_letters - 1 := by
    rw [hf]
    decide
  constructor
  · rw [letterToTensor, hidx]
  · rw [inputRow, hidx]

/-- Claim C1, witness for the amended theorem at the concrete character `!`
(code 33). -/
theorem c1_wit :
    (Char.ofNat 33 ∉ all_letters) ∧
    (letterToTensor (Char.ofNat 33) = (List.replicate n_letters (0 : ℚ)).set (n_letters - 1) 1 ∧
     inputRow (Char.ofNat 33) = (List.replicate n_letters (0 : ℚ)).set (n_letters - 1) 1) :=
  ⟨by decide, c1_thm (Char.ofNat 33) (by decide)⟩

/-! ### Claim C9 -/

/-- Claim C9: for every symbol of the 57-symbol vocabulary, taking the
argmax index of its one-hot encoding and indexing `all_letters` with it
returns the symbol itself (encode/decode round trip). -/
theorem c9_thm : ∀ i : Fin 57,
    all_letters.getD
        (argmaxList (letterToTensor (all_letters.getD i.1 (Char.ofNat 0)))) (Char.ofNat 0)
      = all_letters.getD i.1 (Char.ofNat 0) := by
  decide

/-! ### Claim C10 -/

/-- Claim C10: for every single character outside `all_letters`, `find`
yields `-1`, the 1 is written at the last index 56 by negative indexing,
and the row returned by `letterToTensor`, `lineToTensor` and `inputTensor`
is indistinguishable from the encoding of the apostrophe (the EOS symbol,
code 39); no error is raised. -/
theorem c10_thm (c : Char) (h : c ∉ all_letters) :
    strFind all_letters c = -1 ∧
    pySetIndex n_letters (strFind all_letters c) = n_letters - 1 ∧
    letterToTensor c = letterToTensor (Char.ofNat 39) ∧
    lineToTensor [c] = [letterToTensor (Char.ofNat 39)] ∧
    inputTensor [c] = [letterToTensor (Char.ofNat 39)] := by
  have hf := strFind_of_not_mem c h
  have hidx : pySetIndex n_letters (strFind all_letters c) = n_letters - 1 := by
    rw [hf]
    decide
  have hlt : letterToTensor c = letterToTensor (Char.ofNat 39) := by
    rw [letterToTensor, hidx]
    decide
  have hrow : inputRow c = letterToTensor c := rfl
  refine ⟨hf, hidx, hlt, ?_, ?_⟩
  · simp [lineToTensor, hlt]
  · simp [inputTensor, hrow, hlt]

/-- Claim C10, witness at the concrete character `?` (code 63). -/
theorem c10_wit :
    (Char.ofNat 63 ∉ all_letters) ∧
    (strFind all_letters (Char.ofNat 63) = -1 ∧
     pySetIndex n_letters (strFind all_letters (Char.ofNat 63)) = n_letters - 1 ∧
     letterToTensor (Char.ofNat 63) = letterToTensor (Char.ofNat 39) ∧
     lineToTensor [Char.ofNat 63] = [letterToTensor (Char.ofNat 39)] ∧
     inputTensor [Char.ofNat 63] = [letterToTensor (Char.ofNat 39)]) :=
  ⟨by decide, c10_thm (Char.ofNat 63) (by decide)⟩

/-! ### Claims C7 and C8 -/

/-- Claim C7: for every non-empty line and well-formed parameters, the
classification core processes the one-hot rows strictly in input order
from the all-zero hidden state, feeding each new hidden state forward, and
returns exactly the final step output (all intermediate outputs are
discarded), a row of length `C` whatever the line length. -/
theorem c7_thm (p : RNNC) (C : Nat) (c : Char) (rest : List Char) (hwf : RNNC.wf p C) :
    predictOutput p (c :: rest)
      = some (classifySpec p (letterToTensor c) (lineToTensor rest)
          (List.replicate hiddenSizeC (0 : ℚ))) ∧
    (classifySpec p (letterToTensor c) (lineToTensor rest)
        (List.replicate hiddenSizeC (0 : ℚ))).length = C := by
  constructor
  · rw [predictOutput]
    exact classifySteps_eq p (lineToTensor rest) (letterToTensor c)
      (List.replicate hiddenSizeC (0 : ℚ)) none
  · exact classifySpec_length p C hwf.2.1 hwf.2.2.1 (lineToTensor rest) (letterToTensor c)
      (List.replicate hiddenSizeC (0 : ℚ))

/-- Concrete classification parameters of the shape the notebook
instantiates (`RNN(n_letters, C)` with `C = 1` here): all-zero weights. -/
def pCW : RNNC :=
  ⟨⟨List.replicate 128 (List.replicate 185 (0 : ℚ)), List.replicate 128 0⟩,
   ⟨[List.replicate 185 (0 : ℚ)], [0]⟩⟩

theorem pCW_wf : RNNC.wf pCW 1 := by
  have h57 : n_letters = 57 := by decide
  constructor
  · refine ⟨List.length_replicate 128 _, List.length_replicate 128 _, ?_⟩
    intro r hr
    rw [List.eq_of_mem_replicate hr, List.length_replicate, h57]
    rfl
  · refine ⟨rfl, rfl, ?_⟩
    intro r hr
    have hr2 : r ∈ [List.replicate 185 (0 : ℚ)] := hr
    rw [List.mem_singleton] at hr2
    rw [hr2, List.length_replicate, h57]
    rfl

/-- Claim C7, witness at a concrete one-letter line and all-zero
parameters with one category. -/
theorem c7_wit :
    RNNC.wf pCW 1 ∧
    (predictOutput pCW [Char.ofNat 65]
        = some (classifySpec pCW (letterToTensor (Char.ofNat 65)) (lineToTensor [])
            (List.replicate hiddenSizeC (0 : ℚ))) ∧
     (classifySpec pCW (letterToTensor (Char.ofNat 65)) (lineToTensor [])
         (List.replicate hiddenSizeC (0 : ℚ))).length = 1) :=
  ⟨pCW_wf, c7_thm pCW 1 (Char.ofNat 65) [] pCW_wf⟩

/-- Claim C8, counterexample: on the zero-length line the classification
core returns no projection at all — the Python loop body never runs, the
output variable is never assigned, and the subsequent read raises; the
embedded error path is `none`, not the zero-hidden projection the claim
describes. -/
theorem c8_cex : predictOutput pCW [] = none := rfl

/-- Claim C8 as amended: classifying a zero-length sequence returns no
output vector for any parameters — the loop never executes and the read of
the never-assigned output variable raises (embedded as `none`); the
all-zero-hidden projection is not returned. -/
theorem c8_thm : ∀ p : RNNC, predictOutput p [] = none := fun _ => rfl

/-! ### Claim C2 -/

/-- Claim C2: the generation vocabulary has exactly 57 entries with no
separate end-marker slot, so index `n_letters - 1 = 56` is the index of
the apostrophe (code 39); consequently, for every well-formed parameters,
category row and start letter, the word returned by `sample_word` never
contains an apostrophe beyond the seed (decoding halts whenever the
apostrophe scores highest), and `targetTensor` labels the final training
step of every line with that same index. -/
theorem c2_thm :
    n_letters = 57 ∧
    all_letters.getD (n_letters - 1) (Char.ofNat 0) = Char.ofNat 39 ∧
    (∀ (p : RNNG) (C : Nat) (category : List ℚ) (start : Char),
      RNNG.wf p C n_letters → Char.ofNat 39 ∉ (sample_word p start category).drop 1) ∧
    (∀ line : List Char, (targetTensor line).getLast? = some ((n_letters : Int) - 1)) := by
  refine ⟨by decide, by decide, ?_, ?_⟩
  · intro p C category start hwf
    obtain ⟨t, ht, hmem⟩ := sampleLoop_spec p category hwf.2.2.1 hwf.2.2.2.1 max_length
      (inputRow start) p.initHidden [start]
    rw [sample_word, ht]
    simpa using hmem
  · intro line
    rw [targetTensor]
    exact List.getLast?_concat _

/-- Concrete generation parameters of the shape the notebook instantiates
(category width 1 and hidden width 1 here, vocabulary width 57): all-zero
weights. -/
def pGW : RNNG :=
  ⟨1, ⟨[List.replicate 59 (0 : ℚ)], [0]⟩,
      ⟨List.replicate 57 (List.replicate 59 (0 : ℚ)), List.replicate 57 0⟩,
      ⟨List.replicate 57 (List.replicate 58 (0 : ℚ)), List.replicate 57 0⟩⟩

theorem pGW_wf : RNNG.wf pGW 1 n_letters := by
  have h57 : n_letters = 57 := by decide
  refine ⟨⟨rfl, rfl, ?_⟩, ⟨?_, ?_, ?_⟩, ⟨?_, ?_, ?_⟩⟩
  · intro r hr
    have hr2 : r ∈ [List.replicate 59 (0 : ℚ)] := hr
    rw [List.mem_singleton] at hr2
    rw [hr2, List.length_replicate, h57]
    rfl
  · rw [show pGW.i2o.weight = List.replicate 57 (List.replicate 59 (0 : ℚ)) from rfl,
      List.length_replicate, h57]
  · rw [show pGW.i2o.bias = List.replicate 57 (0 : ℚ) from rfl, List.length_replicate, h57]
  · intro r hr
    rw [List.eq_of_mem_replicate hr, List.length_replicate, h57]
    rfl
  · rw [show pGW.o2o.weight = List.replicate 57 (List.replicate 58 (0 : ℚ)) from rfl,
      List.length_replicate, h57]
  · rw [show pGW.o2o.bias = List.replicate 57 (0 : ℚ) from rfl, List.length_replicate, h57]
  · intro r hr
    rw [List.eq_of_mem_replicate hr, List.length_replicate, h57]
    rfl

/-- Claim C2, witness at concrete all-zero parameters and start letter `B`. -/
theorem c2_wit :
    RNNG.wf pGW 1 n_letters ∧
    Char.ofNat 39 ∉ (sample_word pGW (Char.ofNat 66) [(0 : ℚ)]).drop 1 :=
  ⟨pGW_wf, c2_thm.2.2.1 pGW 1 [(0 : ℚ)] (Char.ofNat 66) pGW_wf⟩

/-! ### Claim C3 -/

/-- Claim C3: for every parameters, category row, non-empty seed and
maximum length, the generation script equals its specification — warm up
on the seed keeping the last output and hidden state, then repeatedly take
the argmax of the current output, stop without emitting at the end marker,
otherwise emit the letter, re-encode it as a one-hot input and advance the
cell; the returned string is the seed concatenated with all generated
letters. -/
theorem c3_thm (p : RNNG) (category : List ℚ) (c : Char) (rest : List Char) (L : Nat) :
    ∃ out0 hid0,
      feedSeed p category (c :: rest) p.initHidden none = (some out0, hid0) ∧
      generate p category (c :: rest) L
        = some ((c :: rest) ++ genSpecSuffix p category L out0 hid0) := by
  obtain ⟨out0, hid0, hfeed⟩ := feedSeed_some p category rest c p.initHidden none
  refine ⟨out0, hid0, hfeed, ?_⟩
  simp only [generate, hfeed]
  rw [genLoop_eq_append]

/-! ### Claim C4 -/

/-- Claim C4: for every well-formed parameters, category row, non-empty
seed of length `s` and maximum length `L`, generation terminates without
error (via the end marker or the length bound) and returns a string of
length between `s` and `s + L`. -/
theorem c4_thm (p : RNNG) (C : Nat) (category : List ℚ) (c : Char) (rest : List Char)
    (L : Nat) (hwf : RNNG.wf p C n_letters) (hcat : category.length = C) :
    ∃ r, generate p category (c :: rest) L = some r ∧
      (c :: rest).length ≤ r.length ∧ r.length ≤ (c :: rest).length + L := by
  obtain ⟨out0, hid0, hfeed⟩ := feedSeed_some p category rest c p.initHidden none
  refine ⟨(c :: rest) ++ genSpecSuffix p category L out0 hid0, ?_, ?_, ?_⟩
  · simp only [generate, hfeed]
    rw [genLoop_eq_append]
  · simp
  · simp only [List.length_append]
    have := genSpecSuffix_length_le p category L out0 hid0
    omega

/-- Claim C4, witness at concrete all-zero parameters, seed `B` and the
source maximum length 20. -/
theorem c4_wit :
    RNNG.wf pGW 1 n_letters ∧ [(0 : ℚ)].length = 1 ∧
    (∃ r, generate pGW [(0 : ℚ)] [Char.ofNat 66] 20 = some r ∧
      [Char.ofNat 66].length ≤ r.length ∧ r.length ≤ [Char.ofNat 66].length + 20) :=
  ⟨pGW_wf, rfl, c4_thm pGW 1 [(0 : ℚ)] (Char.ofNat 66) [] 20 pGW_wf rfl⟩

/-! ### Claim C6 -/

/-- Claim C6: one step of the generation cell concatenates the category,
input and hidden rows into a vector of length `C + V + H`, applies two
affine projections to it — one giving the new hidden state of length `H`,
one an intermediate output of length `V` — then applies a third affine
projection to the concatenation of the new hidden state with the
intermediate output, giving the returned score row of length `V`. -/
theorem c6_thm (p : RNNG) (C V : Nat) (category x hidden : List ℚ)
    (hwf : RNNG.wf p C V) (hcat : category.length = C) (hx : x.length = V)
    (hh : hidden.length = p.hidden_size) :
    (category ++ x ++ hidden).length = C + V + p.hidden_size ∧
    rnngForward p category x hidden
      = (p.o2o.app (p.i2h.app (category ++ x ++ hidden)
          ++ p.i2o.app (category ++ x ++ hidden)),
         p.i2h.app (category ++ x ++ hidden)) ∧
    (p.i2h.app (category ++ x ++ hidden)).length = p.hidden_size ∧
    (p.i2o.app (category ++ x ++ hidden)).length = V ∧
    (rnngForward p category x hidden).1.length = V := by
  obtain ⟨⟨h1w, h1b, _⟩, ⟨h2w, h2b, _⟩, ⟨h3w, h3b, _⟩⟩ := hwf
  refine ⟨?_, rfl, ?_, ?_, ?_⟩
  · simp only [List.length_append, hcat, hx, hh]
  · simp [length_app, h1w, h1b]
  · simp [length_app, h2w, h2b]
  · simp [rnngForward, length_app, h3w, h3b]

/-- Tiny concrete generation parameters with `C = V = H = 1`. -/
def pTiny : RNNG :=
  ⟨1, ⟨[[(0 : ℚ), 0, 0]], [0]⟩, ⟨[[(0 : ℚ), 0, 0]], [0]⟩, ⟨[[(0 : ℚ), 0]], [0]⟩⟩

theorem pTiny_wf : RNNG.wf pTiny 1 1 := by
  simp only [RNNG.wf, Linear.wf]
  decide

/-- Claim C6, witness at the tiny concrete parameters and singleton rows. -/
theorem c6_wit :
    RNNG.wf pTiny 1 1 ∧ [(0 : ℚ)].length = 1 ∧ [(0 : ℚ)].length = 1 ∧
    [(0 : ℚ)].length = pTiny.hidden_size ∧
    (([(0 : ℚ)] ++ [(0 : ℚ)] ++ [(0 : ℚ)]).length = 1 + 1 + pTiny.hidden_size ∧
     rnngForward pTiny [(0 : ℚ)] [(0 : ℚ)] [(0 : ℚ)]
       = (pTiny.o2o.app (pTiny.i2h.app ([(0 : ℚ)] ++ [(0 : ℚ)] ++ [(0 : ℚ)])
           ++ pTiny.i2o.app ([(0 : ℚ)] ++ [(0 : ℚ)] ++ [(0 : ℚ)])),
          pTiny.i2h.app ([(0 : ℚ)] ++ [(0 : ℚ)] ++ [(0 : ℚ)])) ∧
     (pTiny.i2h.app ([(0 : ℚ)] ++ [(0 : ℚ)] ++ [(0 : ℚ)])).length = pTiny.hidden_size ∧
     (pTiny.i2o.app ([(0 : ℚ)] ++ [(0 : ℚ)] ++ [(0 : ℚ)])).length = 1 ∧
     (rnngForward pTiny [(0 : ℚ)] [(0 : ℚ)] [(0 : ℚ)]).1.length = 1) :=
  ⟨pTiny_wf, rfl, rfl, rfl,
   c6_thm pTiny 1 1 [(0 : ℚ)] [(0 : ℚ)] [(0 : ℚ)] pTiny_wf rfl rfl rfl⟩

/-! ### Claim C5 -/

/-- Claim C5: one call of the generation trainer on a word of length `n`
runs exactly `n` cell steps fed with the one-hot rows of the true
characters (teacher forcing), computes one criterion term per step against
the true next-character index — the final target being the end-of-sequence
index — sums the `n` per-step terms into one scalar, and applies the
backward-and-update library step to the parameters exactly once; the call
returns the last output and the loss divided by `n`. -/
theorem c5_thm (optStep : RNNG → ℚ → RNNG) (criterion : List ℚ → Int → ℚ) (p : RNNG)
    (category : List ℚ) (c : Char) (rest : List Char) :
    (inputTensor (c :: rest)).length = (c :: rest).length ∧
    inputTensor (c :: rest) = (c :: rest).map inputRow ∧
    (forcedOutputs p category (inputTensor (c :: rest)) p.initHidden).length
      = (c :: rest).length ∧
    (targetTensor (c :: rest)).length = (c :: rest).length ∧
    targetTensor (c :: rest)
      = rest.map (fun ch => strFind all_letters ch) ++ [(n_letters : Int) - 1] ∧
    train optStep criterion p category (inputTensor (c :: rest)) (targetTensor (c :: rest))
      = (optStep p (totalLoss criterion p category (inputTensor (c :: rest))
           (targetTensor (c :: rest))),
         (forcedOutputs p category (inputTensor (c :: rest)) p.initHidden).getLast?,
         totalLoss criterion p category (inputTensor (c :: rest)) (targetTensor (c :: rest))
           / (((c :: rest).length : ℚ))) := by
  have hlen_in : (inputTensor (c :: rest)).length = (c :: rest).length := by
    simp [inputTensor]
  have hlen_tg : (targetTensor (c :: rest)).length = (c :: rest).length := by
    simp [targetTensor]
  refine ⟨hlen_in, rfl, ?_, hlen_tg, rfl, ?_⟩
  · rw [forcedOutputs_length, hlen_in]
  · have hlen2 : (targetTensor (c :: rest)).length = (inputTensor (c :: rest)).length := by
      rw [hlen_in, hlen_tg]
    simp only [train]
    rw [trainLoop_eq p criterion category (inputTensor (c :: rest)) (targetTensor (c :: rest))
      p.initHidden 0 none hlen2]
    simp only [totalLoss, zero_add, Option.or_none, hlen_in]

end KiRNN
